import Mathlib

/-!
Verification of the metadata acquisition pipeline in
`modules/lora_keywords.py`: the metadata store (sidecar files), the
rate-limited request dispatcher, the catalog client and the metadata
resolver.  Machine time is modelled by the rationals, file contents by a
JSON value type, and the external collaborators (file system, hash
function, catalog API) by explicit environment records.
-/

namespace LoraKeywords

/-- JSON values, modelling the Python dict/list/str/int/bool/None universe
that `json.dump` / `json.load` round-trips through the sidecar files. -/
inductive Json where
  | null : Json
  | bool (b : Bool) : Json
  | num (n : Int) : Json
  | str (s : String) : Json
  | arr (xs : List Json) : Json
  | obj (fields : List (String × Json)) : Json

/-- Python truthiness of a JSON value (`if metadata:`): `None`, `False`,
`0`, `""`, `[]` and `{}` are falsy, everything else truthy. -/
def Json.truthy : Json → Bool
  | .null => false
  | .bool b => b
  | .num n => n != 0
  | .str s => s != ""
  | .arr xs => !xs.isEmpty
  | .obj fields => !fields.isEmpty

/-- One image entry of a catalog response (`images[i]`, holding a `url`). -/
structure CatalogImage where
  url : Option String
deriving DecidableEq, Repr

/-- The fields of a catalog response that `get_lora_metadata` reads:
`name`, `modelId`, `trainedWords`, `baseModel`, `model.tags` (present only
when both the `model` key and its `tags` key exist) and `images`. -/
structure ApiData where
  name : Option String
  modelId : Option Int
  trainedWords : List String
  baseModel : Option String
  tags : Option (List String)
  images : List CatalogImage
deriving DecidableEq, Repr

/-- The `CachedMetadata` record: the dict built by `get_lora_metadata`
and persisted in the sidecar file.  `preview_image` is a separate key that
is present only when the catalog response carried at least one image. -/
structure Metadata where
  hash : String
  name : String
  model_id : Option Int
  keywords : List String
  trigger_words : List String
  base_model : String
  preview_image : Option String
deriving DecidableEq, Repr

/-- Lines 132-152 of `lora_keywords.py`: normalize a catalog response into
a `CachedMetadata` record.  `keywords` starts from `model.tags` when
present (empty otherwise) and each trigger word is appended only if it is
not already a member of the list being built. -/
def build_metadata (hash_value : String) (api : ApiData) : Metadata :=
  let keywords0 : List String := match api.tags with
    | some ts => ts
    | none => []
  let kws := api.trainedWords.foldl
    (fun acc w => if w ∈ acc then acc else acc ++ [w]) keywords0
  { hash := hash_value
    name := api.name.getD "Unknown"
    model_id := api.modelId
    keywords := kws
    trigger_words := api.trainedWords
    base_model := api.baseModel.getD "Unknown"
    preview_image := match api.images with
      | [] => none
      | img :: _ => some (img.url.getD "") }

/-- Order-preserving exact-string deduplication keeping the first
occurrence of each string, following the spec's description of how
trigger words are appended. -/
def firstOccurrenceDedup : List String → List String
  | [] => []
  | w :: ws => w :: firstOccurrenceDedup (ws.filter (fun x => decide (x ≠ w)))
termination_by l => l.length
decreasing_by
  simp only [List.length_cons]
  exact Nat.lt_succ_of_le (List.length_filter_le _ _)

/-- The JSON object `json.dump` writes for a metadata dict: all six always
present keys in insertion order, plus `preview_image` when set. -/
def encodeMetadata (m : Metadata) : Json :=
  Json.obj
    ([("hash", Json.str m.hash),
      ("name", Json.str m.name),
      ("model_id", match m.model_id with
        | some i => Json.num i
        | none => Json.null),
      ("keywords", Json.arr (m.keywords.map Json.str)),
      ("trigger_words", Json.arr (m.trigger_words.map Json.str)),
      ("base_model", Json.str m.base_model)] ++
      (match m.preview_image with
        | some u => [("preview_image", Json.str u)]
        | none => []))

/-- First value stored under a key of a JSON object, `none` otherwise. -/
def Json.getField : Json → String → Option Json
  | .obj fields, k => fields.lookup k
  | _, _ => none

/-- Read a JSON string. -/
def Json.asStr : Json → Option String
  | .str s => some s
  | _ => none

/-- Read a list of JSON strings. -/
def Json.strListOf : List Json → Option (List String)
  | [] => some []
  | x :: xs =>
      match x.asStr, Json.strListOf xs with
      | some s, some ss => some (s :: ss)
      | _, _ => none

/-- Read a JSON array of strings. -/
def Json.asStrList : Json → Option (List String)
  | .arr xs => Json.strListOf xs
  | _ => none

/-- Recover a `CachedMetadata` record from a JSON value; `none` when the
value does not have the sidecar schema of §3 of the spec. -/
def decodeMetadata (j : Json) : Option Metadata := do
  let hash ← (j.getField "hash").bind Json.asStr
  let name ← (j.getField "name").bind Json.asStr
  let model_id ← match j.getField "model_id" with
    | some .null => some none
    | some (.num n) => some (some n)
    | _ => none
  let keywords ← (j.getField "keywords").bind Json.asStrList
  let trigger_words ← (j.getField "trigger_words").bind Json.asStrList
  let base_model ← (j.getField "base_model").bind Json.asStr
  let preview_image ← match j.getField "preview_image" with
    | none => some none
    | some (.str s) => some (some s)
    | some _ => none
  pure { hash := hash, name := name, model_id := model_id,
         keywords := keywords, trigger_words := trigger_words,
         base_model := base_model, preview_image := preview_image }

/-! ### Metadata store (sidecar files) -/

/-- State of one file of the sidecar file system: absent, present but not
readable as JSON, or readable with a parsed JSON content. -/
inductive FileState where
  | missing : FileState
  | unreadable : FileState
  | content (j : Json) : FileState

/-- The sidecar file system, one `FileState` per path. -/
def FS : Type := String → FileState

/-- Line 55: `get_metadata_path` appends the sidecar suffix. -/
def get_metadata_path (lora_path : String) : String :=
  lora_path ++ ".civitai.json"

/-- Lines 57-65: `load_metadata` reads and parses the sidecar file;
a missing file, an unreadable file or a parse failure is swallowed and
yields `None`. -/
def load_metadata (fs : FS) (lora_path : String) : Option Json :=
  match fs (get_metadata_path lora_path) with
  | .content j => some j
  | _ => none

/-- Lines 67-76: `save_metadata` writes the record (as dumped JSON) to the
sidecar path.  The OS-level write is modelled as always succeeding. -/
def save_metadata (fs : FS) (lora_path : String) (metadata : Json) : FS :=
  fun q => if q = get_metadata_path lora_path then .content metadata else fs q

/-! ### Catalog client -/

/-- Outcome of the one `requests.get` call: either the network layer
fails (`requests` raises), or an HTTP response with a status code and a
parsed JSON body arrives. -/
inductive HttpOutcome where
  | failure (e : String) : HttpOutcome
  | response (status : Nat) (body : Json) : HttpOutcome

/-- Lines 82-92: `fetch_from_civitai` issues the GET and returns the
parsed body on status 200 and `None` on any other status.  There is no
exception handler in the function, so a failing `requests.get` raises to
the caller, modelled by the `Except.error` branch. -/
def fetch_from_civitai (o : HttpOutcome) : Except String (Option Json) :=
  match o with
  | .failure e => .error e
  | .response status body =>
      if status = 200 then .ok (some body) else .ok none

/-! ### Metadata resolver -/

/-- The external collaborators `get_lora_metadata` consults:
`os.path.exists`, `get_file_from_folder_list` over `config.paths_loras`,
the sidecar file system, `sha256_from_cache` (empty string on failure)
and `get_model_by_hash` (the dispatcher round trip, `none` on any
failure or timeout). -/
structure Env where
  fileExists : String → Bool
  folderLookup : String → Option String
  fs : FS
  sha256 : String → String
  api : String → Option ApiData

/-- Result of one `get_lora_metadata` call, instrumented with how often
each collaborator was used: sidecar reads, digest computations, catalog
requests submitted, and the file system after any save. -/
structure ResolveResult where
  result : Option Json
  loads : Nat
  hashes : Nat
  fetches : Nat
  fs : FS

/-- Line 104: `not lora_filename or lora_filename == "None"` — the guard
that skips `None`, empty and literal `"None"` filenames. -/
def isSkippedFilename : Option String → Bool
  | none => true
  | some s => s == "" || s == "None"

/-- Lines 108-111: resolve the filename to a path — the direct path when
it exists, otherwise a lookup through the configured LoRA folders. -/
def resolve_lora_path (env : Env) (f : String) : Option String :=
  if env.fileExists f then some f else env.folderLookup f

/-- Lines 122-155: the fetch branch of `get_lora_metadata` — compute the
digest, submit `fetch_from_civitai` through the dispatcher, normalize the
response and save the sidecar.  `loadCount` records whether the cache
branch read the sidecar before falling through. -/
def fetch_branch (env : Env) (lora_path : String) (loadCount : Nat) :
    ResolveResult :=
  let hash_value := env.sha256 lora_path
  if hash_value = "" then
    ⟨none, loadCount, 1, 0, env.fs⟩
  else
    match env.api hash_value with
    | none => ⟨none, loadCount, 1, 1, env.fs⟩
    | some api =>
        let metadata := encodeMetadata (build_metadata hash_value api)
        ⟨some metadata, loadCount, 1, 1,
          save_metadata env.fs lora_path metadata⟩

/-- Lines 102-155: `get_lora_metadata`.  Skip falsy or `"None"` filenames;
resolve the path; unless `refresh` is set, return a truthy cached sidecar;
otherwise fetch, normalize and save. -/
def get_lora_metadata (env : Env) (lora_filename : Option String)
    (refresh : Bool) : ResolveResult :=
  if isSkippedFilename lora_filename then ⟨none, 0, 0, 0, env.fs⟩
  else
    let f := lora_filename.getD ""
    match resolve_lora_path env f with
    | none => ⟨none, 0, 0, 0, env.fs⟩
    | some lora_path =>
        if lora_path = "" ∨ env.fileExists lora_path = false then
          ⟨none, 0, 0, 0, env.fs⟩
        else if refresh then
          fetch_branch env lora_path 0
        else
          match load_metadata env.fs lora_path with
          | some metadata =>
              if metadata.truthy then ⟨some metadata, 1, 0, 0, env.fs⟩
              else fetch_branch env lora_path 1
          | none => fetch_branch env lora_path 1

/-- The path-resolution hypotheses of claim C3: the filename passes the
falsy guard, resolves to an existing path. -/
def resolvesTo (env : Env) (f p : String) : Prop :=
  isSkippedFilename (some f) = false ∧ resolve_lora_path env f = some p ∧
  p ≠ "" ∧ env.fileExists p = true

/-! ### Rate-limited dispatcher -/

/-- One unit of work the worker takes off the queue: the idle time that
passes before the worker reaches it, how long the callable runs, and
whether the callable returns a value or raises. -/
structure Request where
  gap : ℚ
  duration : ℚ
  outcome : Except String Int

/-- Worker-owned state: the current wall clock and the `request_times`
window list (oldest first). -/
structure WState where
  clock : ℚ
  request_times : List ℚ

/-- Line 27: drop window entries aged 60 seconds or more, keeping
`t` with `now - t < 60`. -/
def prune (now : ℚ) (ts : List ℚ) : List ℚ :=
  ts.filter (fun t => decide (now - t < 60))

/-- What one iteration of the worker loop produces: the successor state,
the timestamp recorded for the call, the throttle sleep taken, and the
pair put on the request's result queue. -/
structure StepResult where
  state : WState
  timestamp : ℚ
  slept : ℚ
  delivered : Bool × Option (Int ⊕ String)

/-- Lines 24-43 of `process_requests`, one non-idle loop iteration: prune
the window, sleep `max 0 (60 - (now - request_times[0]))` when ten or
more entries survive pruning, record a fresh timestamp, run the callable,
and put `(True, result)` — or `(False, None)` when it raised — on the
result queue. -/
def stepWorker (s : WState) (r : Request) : StepResult :=
  let now := s.clock + r.gap
  let times := prune now s.request_times
  let slept : ℚ :=
    if 10 ≤ times.length then max 0 (60 - (now - times.headI)) else 0
  let ts := now + slept
  let delivered : Bool × Option (Int ⊕ String) :=
    match r.outcome with
    | .ok v => (true, some (Sum.inl v))
    | .error _ => (false, none)
  ⟨⟨ts + r.duration, times ++ [ts]⟩, ts, slept, delivered⟩

/-- Run the worker over a queue of requests, collecting the timestamps at
which the callables are invoked. -/
def runWorker (s : WState) : List Request → WState × List ℚ
  | [] => (s, [])
  | r :: rs =>
      let st := stepWorker s r
      let rest := runWorker st.state rs
      (rest.1, st.timestamp :: rest.2)

/-- Index-separation form of "at most ten invocations in any rolling
60-second window": any two invocations ten positions apart are at least
60 seconds apart. -/
def sep10 (l : List ℚ) : Prop :=
  ∀ i, i + 10 < l.length → l.getD i 0 + 60 ≤ l.getD (i + 10) 0

/-- Invariant tying the worker state to the history `L` of invocation
timestamps emitted so far: the history is nondecreasing and below the
clock, `request_times` is a suffix of the history whose dropped prefix
has aged out, at most ten entries survive pruning at the current clock,
and the history is 10-separated. -/
structure WindowInv (s : WState) (L : List ℚ) : Prop where
  sorted : List.Pairwise (fun a b => a ≤ b) L
  le_clock : ∀ t ∈ L, t ≤ s.clock
  suffix : ∃ n, n ≤ L.length ∧ s.request_times = L.drop n ∧
      ∀ t ∈ L.take n, t + 60 ≤ s.clock
  pruned_card : (prune s.clock s.request_times).length ≤ 10
  sep : sep10 L

/-! ### Dispatcher front end and module initialization -/

/-- Observable state of the dispatcher module: the FIFO `request_queue`
(pending request identifiers), the `is_running` flag, and how many worker
threads were ever started. -/
structure DispatcherState where
  queue : List Nat
  is_running : Bool
  workerStarts : Nat
deriving DecidableEq, Repr

/-- The module-level globals before initialization: empty queue, worker
not running, no worker threads started (lines 15-18). -/
def initialState : DispatcherState := ⟨[], false, 0⟩

/-- Lines 48-51: `queue_api_request` makes a result queue, appends the
pending request to the FIFO queue and returns; it contains no worker
management. -/
def queue_api_request (s : DispatcherState) (r : Nat) : DispatcherState :=
  { s with queue := s.queue ++ [r] }

/-- Lines 727-730: module initialization sets `is_running` and starts the
single daemon worker thread. -/
def module_init (s : DispatcherState) : DispatcherState :=
  { s with is_running := true, workerStarts := s.workerStarts + 1 }

/-! ### Concrete fixtures used by witnesses -/

/-- A concrete metadata record. -/
def mW : Metadata := ⟨"abc", "nm", none, ["k1", "k2"], ["k2"], "SDXL", none⟩

/-- Environment with one asset file `L` and a valid sidecar for it. -/
def envC3 : Env :=
  ⟨fun s => s == "L", fun _ => none,
   fun q => if q = "L.civitai.json" then FileState.content (encodeMetadata mW)
            else FileState.missing,
   fun _ => "", fun _ => none⟩

/-- Environment with no files at all. -/
def envW : Env :=
  ⟨fun _ => false, fun _ => none, fun _ => FileState.missing,
   fun _ => "", fun _ => none⟩

/-- Worker state whose window already holds ten timestamps. -/
def sW : WState := ⟨0, List.replicate 10 0⟩

/-- An instantaneous request that succeeds with value 0. -/
def rW : Request := ⟨0, 0, Except.ok 0⟩

/-- Eleven instantaneous requests. -/
def reqsW : List Request := List.replicate 11 ⟨0, 0, Except.ok 0⟩

/-! ### Helper lemmas -/

theorem strListOf_map_str (xs : List String) :
    Json.strListOf (xs.map Json.str) = some xs := by
  induction xs with
  | nil => rfl
  | cons x xs ih => simp [Json.strListOf, Json.asStr, ih]

theorem truthy_of_decode {j : Json} {m : Metadata}
    (h : decodeMetadata j = some m) : j.truthy = true := by
  cases j with
  | obj fields =>
      cases fields with
      | nil => simp [decodeMetadata, Json.getField, List.lookup] at h
      | cons kv l => rfl
  | null => simp [decodeMetadata, Json.getField] at h
  | bool b => simp [decodeMetadata, Json.getField] at h
  | num n => simp [decodeMetadata, Json.getField] at h
  | str s => simp [decodeMetadata, Json.getField] at h
  | arr xs => simp [decodeMetadata, Json.getField] at h

theorem foldl_append_dedup (l acc : List String) :
    l.foldl (fun acc w => if w ∈ acc then acc else acc ++ [w]) acc
      = acc ++ firstOccurrenceDedup (l.filter (fun w => decide (w ∉ acc))) := by
  induction l generalizing acc with
  | nil => simp [firstOccurrenceDedup]
  | cons w ws ih =>
      by_cases hw : w ∈ acc
      · have hdec : (decide (w ∉ acc)) = false := by simp [hw]
        simp only [List.foldl_cons, if_pos hw, List.filter_cons, hdec,
          Bool.false_eq_true, if_neg]
        exact ih acc
      · have hdec : (decide (w ∉ acc)) = true := by simp [hw]
        rw [List.foldl_cons, if_neg hw, ih (acc ++ [w])]
        have hfw : (w :: ws).filter (fun x => decide (x ∉ acc))
            = w :: ws.filter (fun x => decide (x ∉ acc)) := by
          simp [List.filter_cons, hw]
        rw [hfw]
        have hff : ws.filter (fun x => decide (x ∉ acc ++ [w]))
            = (ws.filter (fun x => decide (x ∉ acc))).filter
                (fun x => decide (x ≠ w)) := by
          rw [List.filter_filter]
          apply List.filter_congr
          intro x _
          by_cases hx : x = w
          · subst hx
            simp
          · by_cases hxa : x ∈ acc <;> simp [hx, hxa]
        rw [hff, firstOccurrenceDedup]
        simp [hw]

theorem foldl_append_dedup_nodup (l acc : List String) (h : acc.Nodup) :
    (l.foldl (fun acc w => if w ∈ acc then acc else acc ++ [w]) acc).Nodup := by
  induction l generalizing acc with
  | nil => simpa
  | cons w ws ih =>
      rw [List.foldl_cons]
      by_cases hw : w ∈ acc
      · rw [if_pos hw]
        exact ih acc h
      · rw [if_neg hw]
        refine ih _ ?h
        simp [List.nodup_append, h, hw]

/-! ### Claim theorems -/

/-- Claim C2, as stated, is false: `fetch_from_civitai` has no exception
handler, so a network failure raises to the caller instead of yielding an
absent result.  At the concrete input of a failing `requests.get` the
function does not return at all. -/
theorem C2_counterexample :
    ¬ ∃ r, fetch_from_civitai (HttpOutcome.failure "timeout") = .ok r := by
  rintro ⟨r, h⟩
  simp [fetch_from_civitai] at h

/-- Claim C2, amended: `fetch_from_civitai` returns the parsed body on
HTTP 200 and `None` on any other status; a network failure propagates as
an exception to its caller (it is absorbed one level up, by the
dispatcher worker). -/
theorem C2_fetch_behavior :
    (∀ b, fetch_from_civitai (HttpOutcome.response 200 b) = .ok (some b)) ∧
    (∀ st b, st ≠ 200 → fetch_from_civitai (HttpOutcome.response st b) = .ok none) ∧
    (∀ e, fetch_from_civitai (HttpOutcome.failure e) = .error e) := by
  refine ⟨fun b => rfl, fun st b hst => ?ne, fun e => rfl⟩
  simp [fetch_from_civitai, hst]

/-- Witness for C2 at a concrete non-200 status. -/
theorem C2_fetch_behavior_witness :
    (404 ≠ 200) ∧ fetch_from_civitai (HttpOutcome.response 404 Json.null) = .ok none :=
  ⟨by decide, C2_fetch_behavior.2.1 404 Json.null (by decide)⟩

/-- Claim C4: the normalized `keywords` are the catalog tags followed by
the trigger words not already present, first-occurrence order-preserving
exact-string dedup on the appended words; in particular tags
`["anime","style"]` with triggers `["style","masterpiece"]` give
`["anime","style","masterpiece"]`. -/
theorem C4_keyword_normalization (hv : String) (api : ApiData) :
    (build_metadata hv api).keywords
      = (api.tags.getD []) ++ firstOccurrenceDedup
          (api.trainedWords.filter (fun w => decide (w ∉ api.tags.getD []))) ∧
    (build_metadata "h" ⟨none, none, ["style", "masterpiece"], none,
        some ["anime", "style"], []⟩).keywords
      = ["anime", "style", "masterpiece"] := by
  constructor
  · have hbase : (match api.tags with
        | some ts => ts
        | none => ([] : List String)) = api.tags.getD [] := by
      cases api.tags <;> rfl
    simp only [build_metadata, hbase]
    exact foldl_append_dedup _ _
  · decide

/-- Claim C5, as stated, is false: the catalog tags are copied into
`keywords` without deduplication, so a response whose tags already repeat
a string produces duplicate keywords. -/
theorem C5_counterexample :
    ¬ (build_metadata "h" ⟨none, none, [], none, some ["art", "art"], []⟩).keywords.Nodup := by
  decide

/-- Claim C5, amended: the keywords contain no duplicates provided the
catalog tags themselves contain none — appending trigger words never
introduces a duplicate. -/
theorem C5_keywords_nodup (hv : String) (api : ApiData)
    (htags : (api.tags.getD []).Nodup) :
    (build_metadata hv api).keywords.Nodup := by
  have hbase : (match api.tags with
      | some ts => ts
      | none => ([] : List String)) = api.tags.getD [] := by
    cases api.tags <;> rfl
  simp only [build_metadata, hbase]
  exact foldl_append_dedup_nodup _ _ htags

/-- Witness for C5 on a duplicate-free tag list. -/
theorem C5_keywords_nodup_witness :
    ((some ["a", "b"] : Option (List String)).getD []).Nodup ∧
    (build_metadata "h" ⟨none, none, ["b", "c"], none, some ["a", "b"], []⟩).keywords.Nodup :=
  ⟨by decide, C5_keywords_nodup "h" ⟨none, none, ["b", "c"], none, some ["a", "b"], []⟩ (by decide)⟩

/-- Claim C6, as stated, is false: when the callable raises, the worker
puts `(False, None)` on the result queue — the raised error is printed,
not delivered.  Concretely a request failing with `"boom"` is delivered
as `(false, none)`, which differs from a pair carrying the error. -/
theorem C6_counterexample :
    (stepWorker ⟨0, []⟩ ⟨0, 0, Except.error "boom"⟩).delivered = (false, none) ∧
    ((false, none) : Bool × Option (Int ⊕ String))
      ≠ (false, some (Sum.inr "boom")) := by
  exact ⟨rfl, by decide⟩

/-- Claim C6, amended: the worker delivers `(true, value)` when the
callable returns normally and `(false, none)` when it raises. -/
theorem C6_delivery (s : WState) (g d : ℚ) :
    (∀ v, (stepWorker s ⟨g, d, Except.ok v⟩).delivered = (true, some (Sum.inl v))) ∧
    (∀ e, (stepWorker s ⟨g, d, Except.error e⟩).delivered = (false, none)) :=
  ⟨fun _ => rfl, fun _ => rfl⟩

/-- Claim C8, as stated, is false: `queue_api_request` contains no worker
management at all — enqueuing from a state whose worker is not running
leaves it not running and starts no thread. -/
theorem C8_counterexample :
    (queue_api_request initialState 0).is_running = false ∧
    (queue_api_request initialState 0).workerStarts = 0 := by
  decide

/-- Claim C8, amended: `queue_api_request` only appends the request to
the FIFO queue; the single worker thread is started once at module
initialization, so exactly one worker ever runs no matter how many
requests are enqueued. -/
theorem C8_single_worker (reqs : List Nat) :
    (reqs.foldl queue_api_request (module_init initialState)).workerStarts = 1 ∧
    (reqs.foldl queue_api_request (module_init initialState)).is_running = true ∧
    (reqs.foldl queue_api_request (module_init initialState)).queue = reqs := by
  have key : ∀ (rs : List Nat) (s : DispatcherState),
      rs.foldl queue_api_request s
        = ⟨s.queue ++ rs, s.is_running, s.workerStarts⟩ := by
    intro rs
    induction rs with
    | nil => intro s; simp [queue_api_request]
    | cons r rs ih =>
        intro s
        rw [List.foldl_cons, ih]
        simp [queue_api_request]
  rw [key]
  simp [module_init, initialState]

/-- Claim C9: saving a metadata record and loading it back yields an
equal record — the sidecar is written and read at the same derived path,
and decoding inverts encoding on every record. -/
theorem C9_save_load_roundtrip (fs : FS) (p : String) (m : Metadata) :
    load_metadata (save_metadata fs p (encodeMetadata m)) p
        = some (encodeMetadata m) ∧
    decodeMetadata (encodeMetadata m) = some m := by
  constructor
  · simp [load_metadata, save_metadata]
  · cases m with
    | mk h n mi kw tw bm pi =>
        cases mi <;> cases pi <;>
          simp [decodeMetadata, encodeMetadata, Json.getField, List.lookup,
            Json.asStr, Json.asStrList, strListOf_map_str]

/-- Claim C10: a `None`, empty or literal `"None"` filename makes
`get_lora_metadata` return absent at once, for either value of `refresh`,
with no sidecar read, no digest computation, no catalog request and an
unchanged file system. -/
theorem C10_skip_falsy_filename (env : Env) (fn : Option String) (refresh : Bool)
    (h : isSkippedFilename fn = true) :
    get_lora_metadata env fn refresh = ⟨none, 0, 0, 0, env.fs⟩ := by
  simp [get_lora_metadata, h]

/-- Witness for C10 at the literal filename "None" with refresh set. -/
theorem C10_skip_falsy_filename_witness :
    isSkippedFilename (some "None") = true ∧
    get_lora_metadata envW (some "None") true = ⟨none, 0, 0, 0, envW.fs⟩ :=
  ⟨by decide, C10_skip_falsy_filename envW (some "None") true (by decide)⟩

/-- Claim C3: when the sidecar of a resolvable asset exists and decodes
as a valid `CachedMetadata` record, `get_lora_metadata` without refresh
returns exactly the sidecar contents, reads the sidecar once, computes no
digest, submits no catalog request and leaves the file system unchanged. -/
theorem C3_cached_sidecar (env : Env) (f p : String) (j : Json) (m : Metadata)
    (hres : resolvesTo env f p)
    (hfile : env.fs (get_metadata_path p) = FileState.content j)
    (hvalid : decodeMetadata j = some m) :
    get_lora_metadata env (some f) false = ⟨some j, 1, 0, 0, env.fs⟩ := by
  obtain ⟨hskip, hpath, hne, hex⟩ := hres
  have hload : load_metadata env.fs p = some j := by
    simp [load_metadata, hfile]
  have htr : j.truthy = true := truthy_of_decode hvalid
  simp [get_lora_metadata, hskip, hpath, hne, hex, hload, htr]

/-- Witness for C3: concrete environment with asset `L` and a valid
sidecar. -/
theorem C3_cached_sidecar_witness :
    resolvesTo envC3 "L" "L" ∧
    get_lora_metadata envC3 (some "L") false
      = ⟨some (encodeMetadata mW), 1, 0, 0, envC3.fs⟩ :=
  ⟨⟨by decide, by decide, by decide, by decide⟩,
    C3_cached_sidecar envC3 "L" "L" (encodeMetadata mW) mW
      ⟨by decide, by decide, by decide, by decide⟩
      (by rfl)
      (by decide)⟩

/-! ### Worker step lemmas -/

theorem stepWorker_timestamp (s : WState) (r : Request) :
    (stepWorker s r).timestamp = (s.clock + r.gap) + (stepWorker s r).slept := rfl

theorem stepWorker_state_clock (s : WState) (r : Request) :
    (stepWorker s r).state.clock = (stepWorker s r).timestamp + r.duration := rfl

theorem stepWorker_state_times (s : WState) (r : Request) :
    (stepWorker s r).state.request_times
      = prune (s.clock + r.gap) s.request_times ++ [(stepWorker s r).timestamp] := rfl

theorem stepWorker_slept_nonneg (s : WState) (r : Request) :
    0 ≤ (stepWorker s r).slept := by
  show 0 ≤ (if 10 ≤ (prune (s.clock + r.gap) s.request_times).length then
      max 0 (60 - ((s.clock + r.gap) - (prune (s.clock + r.gap) s.request_times).headI))
    else 0)
  split
  · exact le_max_left 0 _
  · exact le_refl 0

theorem stepWorker_slept_throttle (s : WState) (r : Request)
    (h : 10 ≤ (prune (s.clock + r.gap) s.request_times).length) :
    (stepWorker s r).slept
      = max 0 (60 - ((s.clock + r.gap)
          - (prune (s.clock + r.gap) s.request_times).headI)) := by
  show (if 10 ≤ (prune (s.clock + r.gap) s.request_times).length then
      max 0 (60 - ((s.clock + r.gap) - (prune (s.clock + r.gap) s.request_times).headI))
    else 0) = _
  rw [if_pos h]

theorem stepWorker_slept_under_quota (s : WState) (r : Request)
    (h : (prune (s.clock + r.gap) s.request_times).length < 10) :
    (stepWorker s r).slept = 0 := by
  show (if 10 ≤ (prune (s.clock + r.gap) s.request_times).length then
      max 0 (60 - ((s.clock + r.gap) - (prune (s.clock + r.gap) s.request_times).headI))
    else 0) = 0
  rw [if_neg (by omega)]

theorem stepWorker_now_le_timestamp (s : WState) (r : Request) :
    s.clock + r.gap ≤ (stepWorker s r).timestamp := by
  have h := stepWorker_slept_nonneg s r
  rw [stepWorker_timestamp]
  linarith

theorem stepWorker_head_throttled (s : WState) (r : Request)
    (h : 10 ≤ (prune (s.clock + r.gap) s.request_times).length) :
    (prune (s.clock + r.gap) s.request_times).headI + 60
      ≤ (stepWorker s r).timestamp := by
  rw [stepWorker_timestamp, stepWorker_slept_throttle s r h]
  have hmax : 60 - ((s.clock + r.gap)
      - (prune (s.clock + r.gap) s.request_times).headI)
    ≤ max 0 (60 - ((s.clock + r.gap)
      - (prune (s.clock + r.gap) s.request_times).headI)) := le_max_right _ _
  linarith

/-! ### List lemmas for the sliding-window argument -/

theorem length_filter_mono {α : Type} (p q : α → Bool) (l : List α)
    (h : ∀ a, p a = true → q a = true) :
    (l.filter p).length ≤ (l.filter q).length := by
  induction l with
  | nil => simp
  | cons a l ih =>
      by_cases hpa : p a = true
      · rw [List.filter_cons_of_pos hpa, List.filter_cons_of_pos (h a hpa)]
        simpa using ih
      · rw [List.filter_cons_of_neg hpa]
        cases hqa : q a with
        | false => rw [List.filter_cons_of_neg (by simp [hqa])]; exact ih
        | true =>
            rw [List.filter_cons_of_pos hqa]
            exact le_trans ih (Nat.le_succ _)

theorem filter_sorted_eq_drop (l : List ℚ) (p : ℚ → Bool)
    (hs : List.Pairwise (fun a b => a ≤ b) l)
    (hp : ∀ a b, a ≤ b → p a = true → p b = true) :
    ∃ m, m ≤ l.length ∧ l.filter p = l.drop m ∧ ∀ t ∈ l.take m, p t = false := by
  induction l with
  | nil => exact ⟨0, Nat.le_refl 0, rfl, by simp⟩
  | cons a l ih =>
      have hcons := List.pairwise_cons.mp hs
      by_cases hpa : p a = true
      · refine ⟨0, Nat.zero_le _, ?fa, by simp⟩
        have hself : l.filter p = l :=
          List.filter_eq_self.mpr (fun b hb => hp a b (hcons.1 b hb) hpa)
        rw [List.drop_zero, List.filter_cons_of_pos hpa, hself]
      · obtain ⟨m, hm, hfil, htake⟩ := ih hcons.2
        refine ⟨m + 1, Nat.succ_le_succ hm, ?fb, ?tb⟩
        case fb => rw [List.filter_cons_of_neg hpa, List.drop_succ_cons, hfil]
        case tb =>
          intro x hx
          rw [List.take_succ_cons] at hx
          rcases List.mem_cons.mp hx with heq | hmem
          · subst heq; simpa using hpa
          · exact htake x hmem

theorem headI_drop_getD (L : List ℚ) (k : ℕ) (hk : k < L.length) :
    (L.drop k).headI = L.getD k 0 := by
  cases hdrop : L.drop k with
  | nil =>
      have hlen : (L.drop k).length = 0 := by rw [hdrop]; rfl
      rw [List.length_drop] at hlen
      omega
  | cons a tl =>
      have h0 : (L.drop k)[0]? = some a := by rw [hdrop]; simp
      rw [List.getElem?_drop] at h0
      have hgd : L.getD k 0 = a := by
        rw [List.getD_eq_getElem L 0 hk]
        obtain ⟨h, hval⟩ := List.getElem?_eq_some.mp (by simpa using h0)
        exact hval
      rw [List.headI_cons]
      exact hgd.symm

theorem sorted_getD_le (L : List ℚ) (hs : List.Pairwise (fun a b => a ≤ b) L)
    (i j : ℕ) (hij : i ≤ j) (hj : j < L.length) :
    L.getD i 0 ≤ L.getD j 0 := by
  rcases Nat.eq_or_lt_of_le hij with heq | hlt
  · rw [heq]
  · rw [List.getD_eq_getElem L 0 (lt_trans hlt hj), List.getD_eq_getElem L 0 hj]
    exact (List.pairwise_iff_getElem.mp hs) i j (lt_trans hlt hj) hj hlt

theorem mem_take_getD (L : List ℚ) (k i : ℕ) (hik : i < k) (hiL : i < L.length) :
    L.getD i 0 ∈ L.take k := by
  have h1 : (L.take k)[i]? = L[i]? := by
    rw [List.getElem?_take]
    exact if_pos hik
  have h2 : L[i]? = some (L.getD i 0) := by
    rw [List.getD_eq_getElem L 0 hiL]
    exact List.getElem?_eq_some.mpr ⟨hiL, rfl⟩
  have h3 : (L.take k)[i]? = some (L.getD i 0) := by rw [h1, h2]
  exact List.getElem?_mem h3

/-! ### The sliding-window invariant is preserved by every worker step -/

theorem windowInv_step (s : WState) (r : Request) (L : List ℚ)
    (inv : WindowInv s L) (hg : 0 ≤ r.gap) (hd : 0 ≤ r.duration) :
    WindowInv (stepWorker s r).state (L ++ [(stepWorker s r).timestamp]) := by
  obtain ⟨n, hn, hrt, htaken⟩ := inv.suffix
  have hclock_now : s.clock ≤ s.clock + r.gap := by linarith
  have hsorted_rt : List.Pairwise (fun a b => a ≤ b) s.request_times := by
    rw [hrt]; exact inv.sorted.sublist (List.drop_sublist n L)
  obtain ⟨m, hm, hfil, htake2⟩ :=
    filter_sorted_eq_drop s.request_times
      (fun t => decide (s.clock + r.gap - t < 60)) hsorted_rt
      (by intro a b hab ha; simp at ha ⊢; linarith)
  have htimes : prune (s.clock + r.gap) s.request_times = L.drop (n + m) := by
    rw [prune, hfil, hrt, List.drop_drop]
  have hrtlen : s.request_times.length = L.length - n := by
    rw [hrt, List.length_drop]
  have hk_le : n + m ≤ L.length := by omega
  have htimes_len_le : (prune (s.clock + r.gap) s.request_times).length ≤ 10 := by
    refine le_trans (length_filter_mono _ _ _ ?imp) inv.pruned_card
    intro a ha
    simp at ha ⊢
    linarith
  have htimes_len_eq : (prune (s.clock + r.gap) s.request_times).length
      = L.length - (n + m) := by rw [htimes, List.length_drop]
  have htake_aged : ∀ t ∈ L.take (n + m), t + 60 ≤ s.clock + r.gap := by
    intro t ht
    rw [List.take_add] at ht
    rcases List.mem_append.mp ht with h1 | h2
    · exact le_trans (htaken t h1) (by linarith)
    · have h2a : t ∈ s.request_times.take m := by rw [hrt]; exact h2
      have h2b := htake2 t h2a
      simp at h2b
      linarith
  have hts_now : s.clock + r.gap ≤ (stepWorker s r).timestamp :=
    stepWorker_now_le_timestamp s r
  have hL_le_ts : ∀ t ∈ L, t ≤ (stepWorker s r).timestamp := fun t ht =>
    le_trans (inv.le_clock t ht) (le_trans hclock_now hts_now)
  have hclock_new : (stepWorker s r).state.clock
      = (stepWorker s r).timestamp + r.duration := stepWorker_state_clock s r
  have hts_le_clock : (stepWorker s r).timestamp ≤ (stepWorker s r).state.clock := by
    rw [hclock_new]; linarith
  refine ⟨?sorted, ?leclock, ?suffix, ?card, ?sep⟩
  case sorted =>
    rw [List.pairwise_append]
    refine ⟨inv.sorted, by simp, ?rel⟩
    intro a ha b hb
    rw [List.mem_singleton] at hb
    subst hb
    exact hL_le_ts a ha
  case leclock =>
    intro t ht
    rcases List.mem_append.mp ht with h1 | h2
    · exact le_trans (hL_le_ts t h1) hts_le_clock
    · rw [List.mem_singleton] at h2
      subst h2
      exact hts_le_clock
  case suffix =>
    refine ⟨n + m, by simp [List.length_append]; omega, ?eq, ?aged⟩
    case eq =>
      rw [stepWorker_state_times s r, htimes, List.drop_append_of_le_length hk_le]
    case aged =>
      intro t ht
      rw [List.take_append_of_le_length hk_le] at ht
      have haged := htake_aged t ht
      rw [hclock_new]
      linarith
  case card =>
    rw [stepWorker_state_times s r]
    by_cases hcase : 10 ≤ (prune (s.clock + r.gap) s.request_times).length
    · have hlen10 : (prune (s.clock + r.gap) s.request_times).length = 10 :=
        le_antisymm htimes_len_le hcase
      have hne : prune (s.clock + r.gap) s.request_times ≠ [] := by
        intro hnil
        rw [hnil] at hlen10
        simp at hlen10
      obtain ⟨h0, tl, heq⟩ := List.exists_cons_of_ne_nil hne
      have hh0 : h0 + 60 ≤ (stepWorker s r).timestamp := by
        have hthr := stepWorker_head_throttled s r hcase
        rw [heq] at hthr
        simpa using hthr
      have hbneg : decide ((stepWorker s r).timestamp + r.duration - h0 < 60) = false := by
        simp only [decide_eq_false_iff_not, not_lt]
        linarith
      rw [hclock_new, heq]
      simp only [prune, List.cons_append, List.filter_cons, hbneg,
        Bool.false_eq_true, if_false]
      have hlen_tl : tl.length = 9 := by
        have hten : (h0 :: tl).length = 10 := by rw [← heq]; exact hlen10
        simp at hten
        omega
      calc (List.filter (fun u => decide ((stepWorker s r).timestamp + r.duration - u < 60))
              (tl ++ [(stepWorker s r).timestamp])).length
          ≤ (tl ++ [(stepWorker s r).timestamp]).length := List.length_filter_le _ _
        _ = 10 := by simp [hlen_tl]
    · calc (prune (stepWorker s r).state.clock
              (prune (s.clock + r.gap) s.request_times
                ++ [(stepWorker s r).timestamp])).length
          ≤ (prune (s.clock + r.gap) s.request_times
              ++ [(stepWorker s r).timestamp]).length := List.length_filter_le _ _
        _ ≤ 10 := by simp; omega
  case sep =>
    intro i hi
    rw [List.length_append, List.length_singleton] at hi
    rcases Nat.lt_or_ge (i + 10) L.length with hlt | hge
    · rw [List.getD_append _ _ _ _ (by omega), List.getD_append _ _ _ _ hlt]
      exact inv.sep i hlt
    · have hieq : i + 10 = L.length := by omega
      rw [hieq, List.getD_append_right L [(stepWorker s r).timestamp] 0 L.length
        (Nat.le_refl _), Nat.sub_self]
      have hsingle : ([(stepWorker s r).timestamp].getD 0 0)
          = (stepWorker s r).timestamp := rfl
      rw [hsingle, List.getD_append _ _ _ _ (by omega)]
      by_cases hcase : 10 ≤ (prune (s.clock + r.gap) s.request_times).length
      · have hlen10 : (prune (s.clock + r.gap) s.request_times).length = 10 :=
          le_antisymm htimes_len_le hcase
        have hik : i = n + m := by omega
        have hkL : n + m < L.length := by omega
        rw [hik, ← headI_drop_getD L (n + m) hkL, ← htimes]
        exact stepWorker_head_throttled s r hcase
      · have hik : i < n + m := by omega
        have hiL : i < L.length := by omega
        have hmem := mem_take_getD L (n + m) i hik hiL
        have haged := htake_aged _ hmem
        linarith

/-- Running the worker from any invariant state keeps the full history of
invocation timestamps nondecreasing and 10-separated. -/
theorem windowInv_run (reqs : List Request) : ∀ (s : WState) (L : List ℚ),
    WindowInv s L → (∀ r ∈ reqs, 0 ≤ r.gap ∧ 0 ≤ r.duration) →
    List.Pairwise (fun a b => a ≤ b) (L ++ (runWorker s reqs).2) ∧
    sep10 (L ++ (runWorker s reqs).2) := by
  induction reqs with
  | nil =>
      intro s L inv h
      simp only [runWorker, List.append_nil]
      exact ⟨inv.sorted, inv.sep⟩
  | cons r rs ih =>
      intro s L inv h
      have hr := h r (List.mem_cons_self r rs)
      have step := windowInv_step s r L inv hr.1 hr.2
      have hres := ih (stepWorker s r).state (L ++ [(stepWorker s r).timestamp]) step
        (fun x hx => h x (List.mem_cons_of_mem r hx))
      rw [List.append_assoc, List.singleton_append] at hres
      have htrace : (runWorker s (r :: rs)).2
          = (stepWorker s r).timestamp :: (runWorker (stepWorker s r).state rs).2 := rfl
      rw [htrace]
      exact hres

/-- The module-initial worker state (empty window) satisfies the
invariant with an empty history. -/
theorem windowInv_initial (c0 : ℚ) : WindowInv ⟨c0, []⟩ [] := by
  refine ⟨by simp, by simp, ⟨0, Nat.le_refl 0, rfl, by simp⟩, by simp [prune], ?sp⟩
  intro i hi
  simp at hi

/-- Claim C7: each non-idle worker iteration first prunes the window
(keeping the timestamps aged strictly less than 60 seconds), and when the
pruned window holds at least ten entries it sleeps exactly
`60 - (now - oldest)` seconds clamped to be non-negative before invoking
the next callable (at `now + slept`); under quota it does not sleep. -/
theorem C7_prune_then_throttle (s : WState) (r : Request) :
    (stepWorker s r).state.request_times
        = prune (s.clock + r.gap) s.request_times ++ [(stepWorker s r).timestamp] ∧
    (10 ≤ (prune (s.clock + r.gap) s.request_times).length →
      (stepWorker s r).slept
        = max 0 (60 - ((s.clock + r.gap)
            - (prune (s.clock + r.gap) s.request_times).headI))) ∧
    ((prune (s.clock + r.gap) s.request_times).length < 10 →
      (stepWorker s r).slept = 0) ∧
    0 ≤ (stepWorker s r).slept ∧
    (stepWorker s r).timestamp = (s.clock + r.gap) + (stepWorker s r).slept :=
  ⟨stepWorker_state_times s r, fun h => stepWorker_slept_throttle s r h,
   fun h => stepWorker_slept_under_quota s r h, stepWorker_slept_nonneg s r,
   stepWorker_timestamp s r⟩

/-- Witness for C7 on a full window of ten fresh timestamps. -/
theorem C7_prune_then_throttle_witness :
    10 ≤ (prune (sW.clock + rW.gap) sW.request_times).length ∧
    (stepWorker sW rW).slept
      = max 0 (60 - ((sW.clock + rW.gap)
          - (prune (sW.clock + rW.gap) sW.request_times).headI)) :=
  ⟨by simp [sW, rW, prune],
   (C7_prune_then_throttle sW rW).2.1 (by simp [sW, rW, prune])⟩

/-- Claim C1: starting from the module-initial empty window, whatever
nonnegative idle gaps and call durations occur, at most ten of the
worker's invocation timestamps fall within any rolling 60-second
window `[t, t + 60)`. -/
theorem C1_rate_limit (c0 : ℚ) (reqs : List Request)
    (h : ∀ r ∈ reqs, 0 ≤ r.gap ∧ 0 ≤ r.duration) (t : ℚ) :
    ((Finset.range (runWorker ⟨c0, []⟩ reqs).2.length).filter
        (fun i => t ≤ (runWorker ⟨c0, []⟩ reqs).2.getD i 0 ∧
          (runWorker ⟨c0, []⟩ reqs).2.getD i 0 < t + 60)).card ≤ 10 := by
  obtain ⟨hsorted, hsep⟩ :=
    windowInv_run reqs ⟨c0, []⟩ [] (windowInv_initial c0) h
  rw [List.nil_append] at hsorted hsep
  set E := (runWorker ⟨c0, []⟩ reqs).2 with hE
  set S := (Finset.range E.length).filter
    (fun i => t ≤ E.getD i 0 ∧ E.getD i 0 < t + 60) with hS
  by_contra hcon
  push_neg at hcon
  have hne : S.Nonempty := Finset.card_pos.mp (by omega)
  have haS : S.min' hne ∈ S := S.min'_mem hne
  have hbS : S.max' hne ∈ S := S.max'_mem hne
  have hsub : S ⊆ Finset.Icc (S.min' hne) (S.max' hne) := fun x hx =>
    Finset.mem_Icc.mpr ⟨S.min'_le x hx, S.le_max' x hx⟩
  have hcard : S.card ≤ S.max' hne + 1 - S.min' hne := by
    calc S.card ≤ (Finset.Icc (S.min' hne) (S.max' hne)).card :=
          Finset.card_le_card hsub
      _ = S.max' hne + 1 - S.min' hne := Nat.card_Icc _ _
  have hab : S.min' hne + 10 ≤ S.max' hne := by omega
  have haP := Finset.mem_filter.mp haS
  have hbP := Finset.mem_filter.mp hbS
  have han : S.min' hne < E.length := Finset.mem_range.mp haP.1
  have hbn : S.max' hne < E.length := Finset.mem_range.mp hbP.1
  have h1 : E.getD (S.min' hne) 0 + 60 ≤ E.getD (S.min' hne + 10) 0 :=
    hsep (S.min' hne) (by omega)
  have h2 : E.getD (S.min' hne + 10) 0 ≤ E.getD (S.max' hne) 0 :=
    sorted_getD_le E hsorted (S.min' hne + 10) (S.max' hne) hab hbn
  have h3 : t ≤ E.getD (S.min' hne) 0 := haP.2.1
  have h4 : E.getD (S.max' hne) 0 < t + 60 := hbP.2.2
  linarith

/-- Witness for C1 on eleven instantaneous requests and the window
starting at time 0. -/
theorem C1_rate_limit_witness :
    (∀ r ∈ reqsW, 0 ≤ r.gap ∧ 0 ≤ r.duration) ∧
    ((Finset.range (runWorker ⟨0, []⟩ reqsW).2.length).filter
        (fun i => (0 : ℚ) ≤ (runWorker ⟨0, []⟩ reqsW).2.getD i 0 ∧
          (runWorker ⟨0, []⟩ reqsW).2.getD i 0 < 0 + 60)).card ≤ 10 :=
  ⟨by decide, C1_rate_limit 0 reqsW (by decide) 0⟩

end LoraKeywords
